import Mathlib

/-!
Shallow embedding of the epub2tts pipeline (text chunking, format
processors, and the book/chapter conversion orchestrator) together with
proofs about the properties claimed of it.

Python strings are modelled as lists of unicode characters (PyStr); Python
len is list length.  Fallible operations return Except.  The per-claim
theorems are at the end of the file.
-/

/-- Model of a Python str: a list of unicode code points. -/
abbrev PyStr := List Char

/-- Characters matched by the regex class backslash-s on a Python str
(equivalently, characters for which str.isspace holds): ASCII whitespace
9-13 and 32, the separators 28-31, NEL 133, NBSP 160, and the standard
Unicode space separators. -/
def isPySpace (c : Char) : Bool :=
  let n := c.toNat
  decide ((9 ≤ n ∧ n ≤ 13) ∨ n = 32 ∨ (28 ≤ n ∧ n ≤ 31) ∨ n = 133 ∨ n = 160 ∨
    n = 5760 ∨ (8192 ≤ n ∧ n ≤ 8202) ∨ n = 8232 ∨ n = 8233 ∨ n = 8239 ∨
    n = 8287 ∨ n = 12288)

/-- Characters matched by the regex class backslash-w, restricted to ASCII
(letters, digits, underscore); the embedding uses it only on ASCII text. -/
def isWordChar (c : Char) : Bool :=
  c.isAlphanum || c == '_'

/-- Model of Python str.strip(): drop whitespace from both ends. -/
def pyStrip (l : PyStr) : PyStr :=
  ((l.dropWhile isPySpace).reverse.dropWhile isPySpace).reverse

/-- Helper for collapseWS: the Bool records whether the previous character
was whitespace (so the current run has already emitted its single space). -/
def collapseWSAux : Bool → PyStr → PyStr
  | _, [] => []
  | inRun, c :: rest =>
    if isPySpace c then
      if inRun then collapseWSAux true rest
      else ' ' :: collapseWSAux true rest
    else c :: collapseWSAux false rest

/-- Model of re.sub applied to a Python str with pattern backslash-s-plus and
replacement a single space: every maximal run of whitespace characters
becomes one space (text_utils.clean_text, first step). -/
def collapseWS (l : PyStr) : PyStr :=
  collapseWSAux false l

/-- Combined effect, on one character, of the chained str.replace calls of
text_utils.clean_text (smart quotes, dashes, ellipsis).  The replacement
characters are never themselves replaced, so applying the chained whole
string replacements equals mapping this function over the characters. -/
def replaceUniChar (c : Char) : PyStr :=
  if c = '‘' ∨ c = '’' then [Char.ofNat 39]
  else if c = '“' ∨ c = '”' then [Char.ofNat 34]
  else if c = '–' then ['-']
  else if c = '—' then ['-', '-']
  else if c = '…' then ['.', '.', '.']
  else [c]

/-- Characters removed by clean_text as non-printable: x00-x08, x0b, x0c,
x0e-x1f, x7f-x9f. -/
def isRemovedCtl (c : Char) : Bool :=
  let n := c.toNat
  decide (n ≤ 8 ∨ n = 11 ∨ n = 12 ∨ (14 ≤ n ∧ n ≤ 31) ∨ (127 ≤ n ∧ n ≤ 159))

/-- Model of text_utils.clean_text: empty input maps to the empty string;
otherwise collapse whitespace runs, substitute the smart-punctuation
characters, remove the non-printable ranges, and strip. -/
def clean_text (text : PyStr) : PyStr :=
  if text = [] then []
  else pyStrip ((((collapseWS text).map replaceUniChar).flatten).filter
    (fun c => !(isRemovedCtl c)))

/-- Helper for pySplitWS; the first argument accumulates the current word
in reverse. -/
def pySplitWSAux : PyStr → PyStr → List PyStr
  | cur, [] => if cur = [] then [] else [cur.reverse]
  | cur, c :: rest =>
    if isPySpace c then
      if cur = [] then pySplitWSAux [] rest
      else cur.reverse :: pySplitWSAux [] rest
    else pySplitWSAux (c :: cur) rest

/-- Model of Python str.split() with no argument: split on whitespace runs,
returning no empty words. -/
def pySplitWS (l : PyStr) : List PyStr :=
  pySplitWSAux [] l

/-- Whether position i of t is a split point of the sentence-splitting
regex of text_utils.split_into_sentences: a whitespace character preceded
by a sentence terminator, except after a word-dot-word abbreviation window
or after an uppercase-lowercase-dot window (the two negative lookbehinds).
The any-character wildcard in the first lookbehind excludes the newline. -/
def sentSplitPos (t : PyStr) (i : Nat) : Bool :=
  isPySpace (t.getD i ' ') &&
  decide (1 ≤ i ∧
    (t.getD (i - 1) ' ' = '.' ∨ t.getD (i - 1) ' ' = '?' ∨
      t.getD (i - 1) ' ' = '!')) &&
  !(decide (4 ≤ i) && isWordChar (t.getD (i - 4) ' ') &&
    decide (t.getD (i - 3) ' ' = '.') && isWordChar (t.getD (i - 2) ' ') &&
    decide (t.getD (i - 1) ' ' ≠ '\n')) &&
  !(decide (3 ≤ i) && (t.getD (i - 3) ' ').isUpper &&
    (t.getD (i - 2) ' ').isLower && decide (t.getD (i - 1) ' ' = '.'))

/-- Helper: walk the positions of t, cutting (and consuming the whitespace
character) at each split point; the accumulator holds the current part in
reverse. -/
def sentSplitAux (t : PyStr) : List Nat → PyStr → List PyStr
  | [], cur => [cur.reverse]
  | i :: rest, cur =>
    if sentSplitPos t i then cur.reverse :: sentSplitAux t rest []
    else sentSplitAux t rest (t.getD i ' ' :: cur)

/-- Model of text_utils.split_into_sentences: re.split at the regex
positions, then strip each part and drop the empty ones. -/
def split_into_sentences (t : PyStr) : List PyStr :=
  if t = [] then []
  else ((sentSplitAux t (List.range t.length) []).map pyStrip).filter
    (fun s => !s.isEmpty)

/-- Overlap seed of text_utils.split_text_into_chunks: with ws the words of
the just-closed buffer and k = min(len(ws), overlap), the Python slice
ws[-k:] joined by single spaces.  When k = 0 the Python slice ws[-0:] is
the WHOLE word list, not the empty one. -/
def overlapSeed (overlap : Nat) (cur : PyStr) : PyStr :=
  let ws := pySplitWS cur
  let k := min ws.length overlap
  List.intercalate [' '] (if k = 0 then ws else ws.drop (ws.length - k))

/-- One iteration of the sentence loop of split_text_into_chunks: state is
(emitted chunks, running buffer).  On overflow of the character budget the
stripped buffer is emitted and the new buffer is the overlap seed, a space
and the triggering sentence; otherwise the sentence is appended to the
buffer with a joining space (or starts it). -/
def chunkStep (chunkSize overlap : Nat) (st : List PyStr × PyStr)
    (s : PyStr) : List PyStr × PyStr :=
  if chunkSize < st.2.length + s.length then
    (st.1 ++ [pyStrip st.2], overlapSeed overlap st.2 ++ ' ' :: s)
  else
    (st.1, if st.2 = [] then s else st.2 ++ ' ' :: s)

/-- Model of text_utils.split_text_into_chunks (Python defaults are
chunk_size 2000, overlap 50): empty text gives no chunks; cleaned text
within the budget gives one chunk; otherwise the sentence loop runs and the
final buffer is emitted when its stripped form is non-empty. -/
def split_text_into_chunks (text : PyStr) (chunkSize overlap : Nat) :
    List PyStr :=
  if text = [] then []
  else
    let t := clean_text text
    if t.length ≤ chunkSize then [t]
    else
      let p := (split_into_sentences t).foldl (chunkStep chunkSize overlap)
        ([], [])
      if pyStrip p.2 = [] then p.1 else p.1 ++ [pyStrip p.2]

/-! ### Chapter and book conversion orchestrator (converters/book_converter.py) -/

/-- Model of BookConverter._process_chunk for chunk i: the synthesis call
either writes the fragment file for chunk i (identified here by its chunk
index, since the real name chunk_i.fmt is determined by the index) or
raises; the exception is caught inside _process_chunk and None is
returned. -/
def processChunkModel (success : Nat → Bool) (i : Nat) : Option Nat :=
  if success i then some i else none

/-- Model of the fragment-collection loop of BookConverter.convert_chapter
in the multi-chunk case: futures are consumed in completion order (the
order list) and each non-None result is appended, so the list handed to
combine_audio_files holds the successful chunk indices in completion
order.  No re-sorting happens between collection and concatenation. -/
def chunkFilesModel (order : List Nat) (success : Nat → Bool) : List Nat :=
  order.filterMap (processChunkModel success)

/-- Model of the tail of BookConverter.convert_chapter in the multi-chunk
case: when at least one fragment was collected, combine_audio_files is
called on exactly the collected list and the chapter output is returned;
with no fragment the chapter yields None. -/
def convertChapterModel (order : List Nat) (success : Nat → Bool) :
    Option (List Nat) :=
  if chunkFilesModel order success = [] then none
  else some (chunkFilesModel order success)

/-- Model of one chapter as seen by BookConverter.convert_book when it is
converted with the chapter progress callback: either no audio work happens
(empty text or no chunks, no progress is reported), or there is exactly one
chunk (one progress report of 1 of 1), or there are several chunks (one
progress report per completed future, in completion sequence). -/
inductive ChapterModel
  | noAudio
  | single (chunk : PyStr)
  | multi (chunks : List PyStr)

/-- Progress values reported while chapter i of numChapters converts, per
the chapter_progress closure of BookConverter.convert_book:
(i + current / total) / numChapters * 100.  In the multi-chunk case the
enumerate counter over as_completed supplies current = p + 1 for
p = 0 .. len(chunks) - 1; a failed chunk still produces a report because
_process_chunk catches its own exceptions and returns None rather than
raising into future.result(). -/
def chapterReports (numChapters i : Nat) (ch : ChapterModel) : List ℚ :=
  match ch with
  | .noAudio => []
  | .single _ => [((i : ℚ) + 1 / 1) / (numChapters : ℚ) * 100]
  | .multi chunks =>
      (List.range chunks.length).map (fun (p : Nat) =>
        ((i : ℚ) + ((p : ℚ) + 1) / (chunks.length : ℚ)) /
          (numChapters : ℚ) * 100)

/-- All progress values reported across one run of
BookConverter.convert_book, chapters processed strictly sequentially. -/
def bookReports (chapters : List ChapterModel) : List ℚ :=
  ((List.range chapters.length).map (fun i =>
    chapterReports chapters.length i (chapters.getD i .noAudio))).flatten

/-! ### Format processors (processors/) and the Ebook facade (core/ebook.py) -/

/-- Error kinds of the exception taxonomy (core/exceptions.py plus the
built-in IndexError). -/
inductive PyErr
  | indexError
  | fileError
  | processingError
deriving DecidableEq

/-- Synthesized fallback title "Chapter N" used across the code base. -/
def chapterFallback (i : Int) : PyStr :=
  "Chapter ".toList ++ (toString (i + 1)).toList

/-- Model of one chapter record of TextProcessor (a Python dict with keys
title, start_idx, end_idx and the optional flags is_sentence_index and
is_full_text, absent flags reading as False). -/
structure TextChapter where
  title : PyStr
  startIdx : Int
  endIdx : Int
  isSentenceIndex : Bool := false
  isFullText : Bool := false
deriving DecidableEq

/-- State of a TextProcessor after _load_text: the raw file text and the
extracted chapter records. -/
structure TextProc where
  text : PyStr
  chapters : List TextChapter
deriving DecidableEq

/-- Helper for splitOnNl; the accumulator holds the current piece in
reverse. -/
def splitOnNlAux : PyStr → PyStr → List PyStr
  | cur, [] => [cur.reverse]
  | cur, c :: rest =>
    if c = '\n' then cur.reverse :: splitOnNlAux [] rest
    else splitOnNlAux (c :: cur) rest

/-- Model of the Python call text.split with separator a newline: empty
pieces are kept. -/
def splitOnNl (l : PyStr) : List PyStr :=
  splitOnNlAux [] l

/-- The chapter-marker vocabulary of TextProcessor._extract_chapters. -/
def chapterMarkers : List PyStr :=
  ["chapter".toList, "section".toList, "part".toList, "book".toList,
   "volume".toList, "prologue".toList, "epilogue".toList,
   "introduction".toList, "conclusion".toList, "appendix".toList,
   "preface".toList, "foreword".toList, "afterword".toList]

/-- Model of the Python membership test pat in l for strings: pat is a
contiguous substring of l. -/
def containsSub (pat l : PyStr) : Bool :=
  l.tails.any (fun suf => pat.isPrefixOf suf)

/-- Whether a line starts (or, when short, contains) a chapter marker, per
TextProcessor._extract_chapters.  Python str.lower is modelled by
Char.toLower, which agrees with it on ASCII text. -/
def isChapterLine (line : PyStr) : Bool :=
  let ll := pyStrip (line.map Char.toLower)
  chapterMarkers.any (fun m => m.isPrefixOf ll) ||
  (decide ((pyStrip line).length < 50) &&
    chapterMarkers.any (fun m => containsSub m ll))

/-- Model of TextProcessor._create_default_chapters.  With zero sentences
the Python chapter size is 0 and range(0, 0, 0) raises ValueError, which
the except clause turns into the single Full Text fallback chapter;
otherwise sentence-index chapters of the computed size are built. -/
def default_chapters (text : PyStr) : List TextChapter :=
  let sentences := split_into_sentences text
  let n := sentences.length
  if n = 0 then
    [{ title := "Full Text".toList, startIdx := 0, endIdx := 0,
       isFullText := true }]
  else
    let size := if n ≤ 50 then n else if n ≤ 200 then 50 else 100
    (List.range ((n + size - 1) / size)).map (fun j =>
      { title := "Section ".toList ++ (toString (j + 1)).toList
        startIdx := (j * size : Int)
        endIdx := (min (j * size + size - 1) (n - 1) : Int)
        isSentenceIndex := true })

/-- Model of TextProcessor._extract_chapters: collect the indices of
chapter-marker lines; with none fall back to default chapters; otherwise
each marker line starts a chapter running to the line before the next
marker (or the last line). -/
def extract_chapters (text : PyStr) : List TextChapter :=
  let lines := splitOnNl text
  let idxs := (List.range lines.length).filter
    (fun i => isChapterLine (lines.getD i []))
  if idxs = [] then default_chapters text
  else
    (List.range idxs.length).map (fun k =>
      { title := pyStrip (lines.getD (idxs.getD k 0) [])
        startIdx := (idxs.getD k 0 : Int)
        endIdx :=
          if k < idxs.length - 1 then (idxs.getD (k + 1) 0 : Int) - 1
          else (lines.length : Int) - 1 })

/-- A TextProcessor state as _load_text builds it from the raw file text
(the file read itself is external input and abstracted as the text
argument). -/
def mkTextProc (text : PyStr) : TextProc :=
  ⟨text, extract_chapters text⟩

/-- Model of TextProcessor.get_chapter_text.  An out-of-range index raises
IndexError inside the try block; the except clause re-raises it as
ProcessingError, an explicit failure.  In range, the chapter kind selects
full text, a sentence slice or a line slice; a stale slice bound yields the
empty string. -/
def TextProc.get_chapter_text (st : TextProc) (i : Int) :
    Except PyErr PyStr :=
  if i < 0 ∨ (st.chapters.length : Int) ≤ i then .error .processingError
  else
    let ch := st.chapters.getD i.toNat ⟨[], 0, 0, false, false⟩
    if ch.isFullText then .ok (clean_text st.text)
    else if ch.isSentenceIndex then
      let sentences := split_into_sentences st.text
      if ch.startIdx < 0 ∨ (sentences.length : Int) ≤ ch.endIdx then .ok []
      else .ok (clean_text (List.intercalate [' ']
        ((sentences.drop ch.startIdx.toNat).take
          (ch.endIdx + 1 - ch.startIdx).toNat)))
    else
      let lines := splitOnNl st.text
      if ch.startIdx < 0 ∨ (lines.length : Int) ≤ ch.endIdx then .ok []
      else .ok (clean_text (List.intercalate ['\n']
        ((lines.drop ch.startIdx.toNat).take
          (ch.endIdx + 1 - ch.startIdx).toNat)))

/-- Model of TextProcessor.get_chapter_title.  The IndexError raised for an
out-of-range index inside the try block is caught by the except clause of
the same function, which returns the synthesized fallback, so this function
never fails. -/
def TextProc.get_chapter_title (st : TextProc) (i : Int) : PyStr :=
  if i < 0 ∨ (st.chapters.length : Int) ≤ i then chapterFallback i
  else (st.chapters.getD i.toNat ⟨[], 0, 0, false, false⟩).title

/-- Model of TextProcessor.get_full_text: the cleaned raw text, with no
per-chapter structure. -/
def TextProc.get_full_text (st : TextProc) : PyStr :=
  clean_text st.text

/-- Model of one EPUB spine document as EPUBProcessor sees it after the
external HTML parse: raw is the text BeautifulSoup extracts once script and
style elements are dropped, headings holds the text of the h1, h2 and h3
elements in document order, and itemId is the spine item id (the empty
string standing for a missing, falsy id). -/
structure EpubChapter where
  raw : PyStr
  headings : List PyStr
  itemId : PyStr
deriving DecidableEq

/-- Model of EPUBProcessor.get_chapter_text: an out-of-range index raises
IndexError inside the try block and the except clause re-raises it as
ProcessingError; in range, the extracted text is cleaned and returned. -/
def EpubProc.get_chapter_text (chapters : List EpubChapter) (i : Int) :
    Except PyErr PyStr :=
  if i < 0 ∨ (chapters.length : Int) ≤ i then .error .processingError
  else .ok (clean_text (chapters.getD i.toNat ⟨[], [], []⟩).raw)

/-- Model of EPUBProcessor.get_chapter_title: the first heading with
non-empty stripped text wins, then a truthy item id, then the synthesized
fallback.  Any exception inside the try block, including the IndexError
raised for an out-of-range index, is caught by the except clause of the
same function, which returns the fallback, so this function never fails. -/
def EpubProc.get_chapter_title (chapters : List EpubChapter) (i : Int) :
    PyStr :=
  if i < 0 ∨ (chapters.length : Int) ≤ i then chapterFallback i
  else
    let ch := chapters.getD i.toNat ⟨[], [], []⟩
    match ch.headings.find? (fun h => !(pyStrip h).isEmpty) with
    | some h => pyStrip h
    | none => if ch.itemId = [] then chapterFallback i else ch.itemId

/-- Model of EPUBProcessor.get_full_text: one entry per chapter, built from
get_chapter_title and get_chapter_text, joined with a single newline by
str.join (an error from any get_chapter_text call would propagate as
ProcessingError, hence the Except plumbing). -/
def EpubProc.get_full_text (chapters : List EpubChapter) :
    Except PyErr PyStr := do
  let entries ← (List.range chapters.length).mapM (fun (i : Nat) => do
    let body ← EpubProc.get_chapter_text chapters (i : Int)
    pure ("Chapter: ".toList ++ EpubProc.get_chapter_title chapters (i : Int)
      ++ "\n\n".toList ++ body ++ "\n\n".toList))
  pure (List.intercalate ['\n'] entries)

/-- Model of one PDF chapter record built by PDFProcessor (title with page
span; the page numbers produced by outline processing and default
chaptering are natural numbers, and a still-unset page_end would raise and
surface as ProcessingError, so a set page span is modelled). -/
structure PdfChapter where
  title : PyStr
  pageStart : Nat
  pageEnd : Nat
deriving DecidableEq

/-- State of a PDFProcessor: extracted page texts (none models a page whose
extract_text returns None) and the chapter records. -/
structure PdfProc where
  pages : List (Option PyStr)
  chapters : List PdfChapter
deriving DecidableEq

/-- Page-span text of one PDF chapter, per the body of
PDFProcessor.get_chapter_text: pages page_start .. page_end that exist and
have truthy extracted text, joined with a blank line and cleaned. -/
def PdfProc.chapterBody (st : PdfProc) (ch : PdfChapter) : PyStr :=
  let idxs := (List.range (ch.pageEnd + 1 - ch.pageStart)).map
    (· + ch.pageStart)
  let texts := idxs.filterMap (fun j =>
    if j < st.pages.length then
      match st.pages.getD j none with
      | some p => if p = [] then none else some p
      | none => none
    else none)
  clean_text (List.intercalate ['\n', '\n'] texts)

/-- Model of PDFProcessor.get_chapter_text: an out-of-range index raises
IndexError inside the try block and the except clause re-raises it as
ProcessingError; in range the chapter page span is extracted. -/
def PdfProc.get_chapter_text (st : PdfProc) (i : Int) : Except PyErr PyStr :=
  if i < 0 ∨ (st.chapters.length : Int) ≤ i then .error .processingError
  else .ok (st.chapterBody (st.chapters.getD i.toNat ⟨[], 0, 0⟩))

/-- Model of PDFProcessor.get_chapter_title: the stored title; the
IndexError raised for an out-of-range index is caught by the except clause
of the same function, which returns the fallback, so this function never
fails. -/
def PdfProc.get_chapter_title (st : PdfProc) (i : Int) : PyStr :=
  if i < 0 ∨ (st.chapters.length : Int) ≤ i then chapterFallback i
  else (st.chapters.getD i.toNat ⟨[], 0, 0⟩).title

/-- Model of PDFProcessor.get_full_text: one entry per chapter, built from
get_chapter_title and get_chapter_text, joined with a single newline by
str.join. -/
def PdfProc.get_full_text (st : PdfProc) : Except PyErr PyStr := do
  let entries ← (List.range st.chapters.length).mapM (fun (i : Nat) => do
    let body ← st.get_chapter_text (i : Int)
    pure ("Chapter: ".toList ++ st.get_chapter_title (i : Int)
      ++ "\n\n".toList ++ body ++ "\n\n".toList))
  pure (List.intercalate ['\n'] entries)

/-- Model of Ebook.get_chapter_text over an abstract format processor (the
proc argument): an out-of-range index raises IndexError before the try
block, so it propagates; a processor error inside the try block is
re-raised as FileError. -/
def Ebook.get_chapter_text (proc : Int → Except PyErr PyStr)
    (numChapters : Nat) (i : Int) : Except PyErr PyStr :=
  if i < 0 ∨ (numChapters : Int) ≤ i then .error .indexError
  else
    match proc i with
    | .ok t => .ok t
    | .error _ => .error .fileError

/-- Model of Ebook.get_chapter_title over an abstract format processor: an
out-of-range index raises IndexError before the try block; any processor
error inside the try block degrades to the synthesized fallback title. -/
def Ebook.get_chapter_title (proc : Int → Except PyErr PyStr)
    (numChapters : Nat) (i : Int) : Except PyErr PyStr :=
  if i < 0 ∨ (numChapters : Int) ≤ i then .error .indexError
  else
    match proc i with
    | .ok t => .ok t
    | .error _ => .ok (chapterFallback i)

/-- Definition following the claim wording for getFullText: the plain
concatenation, over all chapters in order, of the entry
"Chapter: " title, blank line, body, trailing blank line. -/
def claimedFullText (titles bodies : Nat → PyStr) (n : Nat) : PyStr :=
  ((List.range n).map (fun i =>
    "Chapter: ".toList ++ titles i ++ "\n\n".toList ++ bodies i ++
      "\n\n".toList)).flatten

/-- Definition following the amended specification wording for the overlap
seed: the last overlap_words whitespace-delimited tokens of the just-closed
chunk (all of its tokens if it has fewer), joined by single spaces — except
that with overlap_words = 0 and a non-empty token list the Python
negative-zero slice keeps all tokens. -/
def specSeed (overlapWords : Nat) (closed : PyStr) : PyStr :=
  let toks := pySplitWS closed
  if overlapWords = 0 ∧ toks ≠ [] then List.intercalate [' '] toks
  else List.intercalate [' '] ((toks.reverse.take overlapWords).reverse)

/-- Definition following the claim wording for the chunk loop: sentences
are accumulated greedily; when the combined character count would pass
chunk_size the buffer is closed as a chunk and the next buffer starts with
the seed of the closed buffer followed by the triggering sentence; at the
end the final non-empty trimmed buffer becomes the last chunk.  The seed
rule is a parameter so the claimed and the amended seeding can share the
loop. -/
def specChunkLoop (chunkSize : Nat) (seed : PyStr → PyStr) (buf : PyStr) :
    List PyStr → List PyStr
  | [] => if pyStrip buf = [] then [] else [pyStrip buf]
  | s :: rest =>
    if chunkSize < buf.length + s.length then
      pyStrip buf ::
        specChunkLoop chunkSize seed (seed buf ++ ' ' :: s) rest
    else
      specChunkLoop chunkSize seed (if buf = [] then s else buf ++ ' ' :: s)
        rest

/-- Definition following the original claim wording for the overlap seed:
exactly the last overlap_words whitespace-delimited tokens of the
just-closed chunk (all of its tokens if it has fewer), joined by single
spaces. -/
def claimSeed (overlapWords : Nat) (closed : PyStr) : PyStr :=
  List.intercalate [' ']
    (((pySplitWS closed).reverse.take overlapWords).reverse)

/-! ### Helper lemmas about dropWhile and pyStrip -/

lemma length_dropWhile_le {α : Type} (p : α → Bool) (l : List α) :
    (l.dropWhile p).length ≤ l.length := by
  induction l with
  | nil => simp
  | cons a t ih =>
    rw [List.dropWhile_cons]
    split
    · exact Nat.le_trans ih (Nat.le_succ _)
    · simp

lemma dropWhile_snoc_neg {α : Type} {p : α → Bool} {c : α}
    (h : p c = false) (y : List α) :
    (y ++ [c]).dropWhile p = y.dropWhile p ++ [c] := by
  rw [List.dropWhile_append]
  split
  · next he =>
      rw [List.isEmpty_iff] at he
      rw [he, List.dropWhile_cons]
      simp [h]
  · rfl

lemma dropWhile_eq_cons_neg {α : Type} {p : α → Bool} {l : List α}
    {c : α} {r : List α} (h : l.dropWhile p = c :: r) : p c = false := by
  have h2 := List.head?_dropWhile_not p l
  rw [h] at h2
  simpa using h2

lemma mem_dropWhile_neg {α : Type} {p : α → Bool} {c : α}
    (h : p c = false) {l : List α} (hm : c ∈ l) : c ∈ l.dropWhile p := by
  induction l with
  | nil => simp at hm
  | cons a t ih =>
    rw [List.dropWhile_cons]
    by_cases hp : p a
    · rw [if_pos hp]
      rcases List.mem_cons.mp hm with rfl | hmt
      · rw [h] at hp; exact absurd hp (by simp)
      · exact ih hmt
    · rw [if_neg hp]; exact hm

lemma pyStrip_nil : pyStrip [] = [] := rfl

lemma length_pyStrip_le (l : PyStr) : (pyStrip l).length ≤ l.length := by
  unfold pyStrip
  calc ((l.dropWhile isPySpace).reverse.dropWhile isPySpace).reverse.length
      = ((l.dropWhile isPySpace).reverse.dropWhile isPySpace).length := by
        rw [List.length_reverse]
    _ ≤ (l.dropWhile isPySpace).reverse.length := length_dropWhile_le _ _
    _ = (l.dropWhile isPySpace).length := by rw [List.length_reverse]
    _ ≤ l.length := length_dropWhile_le _ _

lemma pyStrip_ne_nil_of_mem {c : Char} {l : PyStr} (hm : c ∈ l)
    (h : isPySpace c = false) : pyStrip l ≠ [] := by
  unfold pyStrip
  have h1 : c ∈ l.dropWhile isPySpace := mem_dropWhile_neg h hm
  have h2 : c ∈ (l.dropWhile isPySpace).reverse := List.mem_reverse.mpr h1
  have h3 := mem_dropWhile_neg h h2
  exact List.ne_nil_of_mem (List.mem_reverse.mpr h3)

lemma pyStrip_eq_nil_or (l : PyStr) :
    pyStrip l = [] ∨ ∃ (a : Char) (M : PyStr), isPySpace a = false ∧
      pyStrip l = a :: (M.dropWhile isPySpace).reverse := by
  unfold pyStrip
  cases h : l.dropWhile isPySpace with
  | nil => left; simp
  | cons a A2 =>
    right
    refine ⟨a, A2.reverse, dropWhile_eq_cons_neg h, ?_⟩
    rw [List.reverse_cons, dropWhile_snoc_neg (dropWhile_eq_cons_neg h),
      List.reverse_append]
    simp

lemma pyStrip_idem (l : PyStr) : pyStrip (pyStrip l) = pyStrip l := by
  rcases pyStrip_eq_nil_or l with h | ⟨a, M, ha, h⟩
  · rw [h]; rfl
  · rw [h]
    unfold pyStrip
    rw [List.dropWhile_cons_of_neg (by simp [ha]), List.reverse_cons,
      List.reverse_reverse]
    cases hM : M.dropWhile isPySpace with
    | nil =>
      rw [List.nil_append, List.dropWhile_cons]
      simp [ha]
    | cons e E2 =>
      have he := dropWhile_eq_cons_neg hM
      rw [List.cons_append, List.dropWhile_cons_of_neg (by simp [he])]
      simp

lemma exists_nonspace_of_pyStrip_ne {l : PyStr} (h : pyStrip l ≠ []) :
    ∃ c ∈ pyStrip l, isPySpace c = false := by
  rcases pyStrip_eq_nil_or l with h0 | ⟨a, M, ha, h0⟩
  · exact absurd h0 h
  · exact ⟨a, by rw [h0]; exact List.mem_cons_self _ _, ha⟩

lemma sentence_mem_props {t s : PyStr} (h : s ∈ split_into_sentences t) :
    s ≠ [] ∧ ∃ r, s = pyStrip r := by
  unfold split_into_sentences at h
  split at h
  · simp at h
  · rw [List.mem_filter] at h
    obtain ⟨hm, hne⟩ := h
    rw [List.mem_map] at hm
    obtain ⟨r, _, rfl⟩ := hm
    refine ⟨?_, r, rfl⟩
    simpa using hne

lemma sentence_has_nonspace {t s : PyStr} (h : s ∈ split_into_sentences t) :
    ∃ c ∈ s, isPySpace c = false := by
  obtain ⟨hne, r, rfl⟩ := sentence_mem_props h
  exact exists_nonspace_of_pyStrip_ne hne

lemma pySplitWSAux_all_space {sp : PyStr}
    (hsp : ∀ a ∈ sp, isPySpace a = true) : pySplitWSAux [] sp = [] := by
  induction sp with
  | nil => rfl
  | cons c r ih =>
    have hc : isPySpace c = true := hsp c (List.mem_cons_self _ _)
    simp only [pySplitWSAux, hc, if_true, if_pos rfl]
    exact ih (fun a ha => hsp a (List.mem_cons_of_mem _ ha))

lemma pySplitWSAux_append_space {sp : PyStr}
    (hsp : ∀ a ∈ sp, isPySpace a = true) (y : PyStr) :
    ∀ cur, pySplitWSAux cur (y ++ sp) = pySplitWSAux cur y := by
  induction y with
  | nil =>
    intro cur
    rw [List.nil_append]
    cases sp with
    | nil => rfl
    | cons c r =>
      have hc : isPySpace c = true := hsp c (List.mem_cons_self _ _)
      have hr : pySplitWSAux [] r = [] :=
        pySplitWSAux_all_space (fun a ha => hsp a (List.mem_cons_of_mem _ ha))
      by_cases hcur : cur = []
      · simp [pySplitWSAux, hc, hcur, hr]
      · simp [pySplitWSAux, hc, hcur, hr]
  | cons d yrest ih =>
    intro cur
    by_cases hd : isPySpace d
    · by_cases hcur : cur = [] <;> simp [pySplitWSAux, hd, hcur, ih]
    · simp [pySplitWSAux, hd, ih]

lemma pySplitWSAux_dropWhile (l : PyStr) :
    pySplitWSAux [] (l.dropWhile isPySpace) = pySplitWSAux [] l := by
  induction l with
  | nil => rfl
  | cons c r ih =>
    by_cases hc : isPySpace c
    · rw [List.dropWhile_cons_of_pos hc]
      rw [ih]
      simp [pySplitWSAux, hc]
    · rw [List.dropWhile_cons_of_neg hc]

/-- Splitting into words ignores leading and trailing whitespace, so
stripping first changes nothing. -/
lemma pySplitWS_pyStrip (l : PyStr) : pySplitWS (pyStrip l) = pySplitWS l := by
  show pySplitWSAux []
      (((l.dropWhile isPySpace).reverse.dropWhile isPySpace).reverse) =
    pySplitWSAux [] l
  set m := l.dropWhile isPySpace with hm
  have hdecomp : m = (m.reverse.dropWhile isPySpace).reverse ++
      (m.reverse.takeWhile isPySpace).reverse := by
    conv_lhs => rw [show m = m.reverse.reverse from (List.reverse_reverse m).symm,
      show m.reverse = m.reverse.takeWhile isPySpace ++
        m.reverse.dropWhile isPySpace from
        (List.takeWhile_append_dropWhile isPySpace m.reverse).symm]
    rw [List.reverse_append]
  have hsp : ∀ a ∈ (m.reverse.takeWhile isPySpace).reverse,
      isPySpace a = true := by
    intro a ha
    rw [List.mem_reverse] at ha
    exact List.mem_takeWhile_imp ha
  calc pySplitWSAux [] ((m.reverse.dropWhile isPySpace).reverse)
      = pySplitWSAux [] ((m.reverse.dropWhile isPySpace).reverse ++
          (m.reverse.takeWhile isPySpace).reverse) :=
        (pySplitWSAux_append_space hsp _ []).symm
    _ = pySplitWSAux [] m := by rw [← hdecomp]
    _ = pySplitWSAux [] l := pySplitWSAux_dropWhile l

/-- The overlap seed only depends on the word list of the closed buffer, so
it is the same for the buffer and for the stripped chunk emitted from it. -/
lemma overlapSeed_pyStrip (ov : Nat) (b : PyStr) :
    overlapSeed ov (pyStrip b) = overlapSeed ov b := by
  unfold overlapSeed
  rw [pySplitWS_pyStrip]

/-! ### Invariants of the chunking loop -/

lemma chunk_foldl_trim (cs ov : Nat) (t : PyStr) :
    ∀ (l : List PyStr), (∀ s ∈ l, s ∈ split_into_sentences t) →
    ∀ st : List PyStr × PyStr,
      (∀ c ∈ st.1, pyStrip c = c) →
      (∀ c ∈ st.1.drop 1, c ≠ []) →
      (st.2 = [] → st.1 = []) →
      (st.2 ≠ [] → ∃ c ∈ st.2, isPySpace c = false) →
      (∀ c ∈ (l.foldl (chunkStep cs ov) st).1, pyStrip c = c) ∧
      (∀ c ∈ (l.foldl (chunkStep cs ov) st).1.drop 1, c ≠ []) ∧
      ((l.foldl (chunkStep cs ov) st).2 = [] →
        (l.foldl (chunkStep cs ov) st).1 = []) ∧
      ((l.foldl (chunkStep cs ov) st).2 ≠ [] →
        ∃ c ∈ (l.foldl (chunkStep cs ov) st).2, isPySpace c = false) := by
  intro l
  induction l with
  | nil => intro _ st h1 h2 h3 h4; exact ⟨h1, h2, h3, h4⟩
  | cons s rest ih =>
    intro hl st h1 h2 h3 h4
    obtain ⟨chunks, buf⟩ := st
    dsimp only at h1 h2 h3 h4
    have hsent : s ∈ split_into_sentences t := hl s (List.mem_cons_self _ _)
    have hsne : s ≠ [] := (sentence_mem_props hsent).1
    obtain ⟨w, hw, hwns⟩ := sentence_has_nonspace hsent
    rw [List.foldl_cons]
    apply ih (fun x hx => hl x (List.mem_cons_of_mem _ hx))
    · intro c hc
      unfold chunkStep at hc
      by_cases hover : cs < buf.length + s.length
      · rw [if_pos hover] at hc
        rcases List.mem_append.mp hc with hc1 | hc2
        · exact h1 c hc1
        · have hceq : c = pyStrip buf := by simpa using hc2
          rw [hceq]; exact pyStrip_idem buf
      · rw [if_neg hover] at hc
        exact h1 c hc
    · intro c hc
      unfold chunkStep at hc
      by_cases hover : cs < buf.length + s.length
      · rw [if_pos hover] at hc
        cases hch : chunks with
        | nil => rw [hch] at hc; simp at hc
        | cons c0 ctl =>
          rw [hch] at hc
          rw [List.cons_append, List.drop_succ_cons] at hc
          rcases List.mem_append.mp hc with hc1 | hc2
          · exact h2 c (by rw [hch]; simpa using hc1)
          · have hceq : c = pyStrip buf := by simpa using hc2
            have hbne : buf ≠ [] := by
              intro hb
              have := h3 hb
              rw [hch] at this; exact absurd this (by simp)
            obtain ⟨d, hd, hdns⟩ := h4 hbne
            rw [hceq]
            exact pyStrip_ne_nil_of_mem hd hdns
      · rw [if_neg hover] at hc
        exact h2 c hc
    · unfold chunkStep
      by_cases hover : cs < buf.length + s.length
      · rw [if_pos hover]
        intro hcontra
        exact absurd hcontra (by simp)
      · rw [if_neg hover]
        by_cases hb : buf = []
        · rw [if_pos hb]
          intro hcontra; exact absurd hcontra hsne
        · rw [if_neg hb]
          intro hcontra
          exact absurd hcontra (by simp)
    · unfold chunkStep
      by_cases hover : cs < buf.length + s.length
      · rw [if_pos hover]
        intro _
        exact ⟨w, List.mem_append_right _ (List.mem_cons_of_mem _ hw), hwns⟩
      · rw [if_neg hover]
        by_cases hb : buf = []
        · rw [if_pos hb]
          intro _
          exact ⟨w, hw, hwns⟩
        · rw [if_neg hb]
          intro _
          exact ⟨w, List.mem_append_right _ (List.mem_cons_of_mem _ hw), hwns⟩

lemma overlapSeed_eq_specSeed (ov : Nat) (cur : PyStr) :
    overlapSeed ov cur = specSeed ov cur := by
  show (List.intercalate [' ']
      (if min (pySplitWS cur).length ov = 0 then pySplitWS cur
       else (pySplitWS cur).drop
         ((pySplitWS cur).length - min (pySplitWS cur).length ov))) =
    (if ov = 0 ∧ pySplitWS cur ≠ [] then List.intercalate [' '] (pySplitWS cur)
     else List.intercalate [' '] (((pySplitWS cur).reverse.take ov).reverse))
  by_cases h0 : min (pySplitWS cur).length ov = 0
  · rw [if_pos h0]
    rcases Nat.min_eq_zero_iff.mp h0 with hlen | hov
    · have hnil : pySplitWS cur = [] := List.eq_nil_of_length_eq_zero hlen
      rw [hnil]
      split
      · rfl
      · simp
    · subst hov
      by_cases hnil : pySplitWS cur = []
      · rw [hnil]
        split
        · rfl
        · simp
      · rw [if_pos ⟨rfl, hnil⟩]
  · rw [if_neg h0]
    have hov : ov ≠ 0 := by
      intro hc; subst hc; simp at h0
    rw [if_neg (by simp [hov])]
    rw [List.take_reverse, List.reverse_reverse]
    have harith : (pySplitWS cur).length - min (pySplitWS cur).length ov =
        (pySplitWS cur).length - ov := by omega
    rw [harith]

lemma foldl_eq_specLoop (cs ov : Nat) (l : List PyStr) :
    ∀ (acc : List PyStr) (buf : PyStr),
      (if pyStrip (l.foldl (chunkStep cs ov) (acc, buf)).2 = []
        then (l.foldl (chunkStep cs ov) (acc, buf)).1
        else (l.foldl (chunkStep cs ov) (acc, buf)).1 ++
          [pyStrip (l.foldl (chunkStep cs ov) (acc, buf)).2]) =
      acc ++ specChunkLoop cs (specSeed ov) buf l := by
  induction l with
  | nil =>
    intro acc buf
    simp only [List.foldl_nil, specChunkLoop]
    split
    · simp
    · rfl
  | cons s rest ih =>
    intro acc buf
    rw [List.foldl_cons]
    by_cases hover : cs < buf.length + s.length
    · have hstep : chunkStep cs ov (acc, buf) s =
          (acc ++ [pyStrip buf], overlapSeed ov buf ++ ' ' :: s) := by
        simp [chunkStep, hover]
      rw [hstep, ih, overlapSeed_eq_specSeed]
      show _ = acc ++ specChunkLoop cs (specSeed ov) buf (s :: rest)
      simp only [specChunkLoop, if_pos hover]
      rw [List.append_assoc]
      rfl
    · have hstep : chunkStep cs ov (acc, buf) s =
          (acc, if buf = [] then s else buf ++ ' ' :: s) := by
        simp [chunkStep, hover]
      rw [hstep, ih]
      show _ = acc ++ specChunkLoop cs (specSeed ov) buf (s :: rest)
      simp only [specChunkLoop, if_neg hover]

/-! ### Claim C2 -/

/-- Claim C2, counterexample: the text of two ellipsis characters has
length 2 ≤ chunk_size 3, yet chunk does not return one chunk equal to the
cleaned text: cleaning expands each ellipsis to three dots, the cleaned
length 6 exceeds the budget, and the sentence loop returns two chunks (the
first one even empty). -/
theorem claim2_counterexample :
    "……".toList.length ≤ 3 ∧
    split_text_into_chunks "……".toList 3 50 ≠ [clean_text "……".toList] ∧
    split_text_into_chunks "……".toList 3 50 = [[], "......".toList] :=
  ⟨by decide, by decide, by decide⟩

/-- Claim C2 (amended): for every non-empty text whose CLEANED length is at
most chunk_size, chunk returns exactly one chunk, equal to clean(text); the
empty text instead yields no chunk at all, and cleaning can lengthen the
text, so the premise must bound the cleaned length. -/
theorem claim2_single_chunk (text : PyStr) (cs ov : Nat)
    (h1 : text ≠ []) (h2 : (clean_text text).length ≤ cs) :
    split_text_into_chunks text cs ov = [clean_text text] := by
  simp only [split_text_into_chunks, if_neg h1, if_pos h2]

/-- Claim C2, witness for the amended theorem at a concrete input. -/
theorem claim2_witness :
    split_text_into_chunks "hi.".toList 2000 50 = [clean_text "hi.".toList] :=
  claim2_single_chunk "hi.".toList 2000 50 (by decide) (by decide)

/-! ### Claim C3 -/

/-- Claim C3, counterexample: with chunk_size 4 the text "a. b." (length 5)
produces the single chunk "a. b." of length 5 > 4 although each of its two
sentences has length 2 ≤ 4: the overflow check ignores the joining space,
so a chunk can exceed chunk_size with no oversized sentence involved. -/
theorem claim3_counterexample :
    split_text_into_chunks "a. b.".toList 4 50 = ["a. b.".toList] ∧
    4 < "a. b.".toList.length ∧
    ∀ s ∈ split_into_sentences (clean_text "a. b.".toList), s.length ≤ 4 :=
  ⟨by decide, by decide, by decide⟩

/-- Invariant of the chunking loop for the sharpened size bound: the first
emitted chunk is within chunk_size + 1; every later chunk is within
chunk_size + 1 or is exactly the trimmed seed built from the IMMEDIATELY
PRECEDING chunk — its overlap text, a space and one triggering sentence —
stated as a chain over adjacent chunks; and the running buffer is empty at
the very start, within chunk_size + 1, or an un-extended seed of the last
emitted chunk. -/
lemma chunk_foldl_chain (cs ov : Nat) (sents : List PyStr) :
    ∀ (l : List PyStr), (∀ s ∈ l, s ∈ sents) →
    ∀ st : List PyStr × PyStr,
      (∀ c ∈ st.1.head?, c.length ≤ cs + 1) →
      List.Chain' (fun prev c => c.length ≤ cs + 1 ∨
        ∃ s ∈ sents, c = pyStrip (overlapSeed ov prev ++ ' ' :: s)) st.1 →
      ((st.2 = [] ∧ st.1 = []) ∨ st.2.length ≤ cs + 1 ∨
        (∃ prev s, st.1.getLast? = some prev ∧ s ∈ sents ∧
          st.2 = overlapSeed ov prev ++ ' ' :: s)) →
      ((∀ c ∈ (l.foldl (chunkStep cs ov) st).1.head?, c.length ≤ cs + 1) ∧
        List.Chain' (fun prev c => c.length ≤ cs + 1 ∨
          ∃ s ∈ sents, c = pyStrip (overlapSeed ov prev ++ ' ' :: s))
          (l.foldl (chunkStep cs ov) st).1 ∧
        (((l.foldl (chunkStep cs ov) st).2 = [] ∧
            (l.foldl (chunkStep cs ov) st).1 = []) ∨
          (l.foldl (chunkStep cs ov) st).2.length ≤ cs + 1 ∨
          (∃ prev s,
            (l.foldl (chunkStep cs ov) st).1.getLast? = some prev ∧
            s ∈ sents ∧
            (l.foldl (chunkStep cs ov) st).2 =
              overlapSeed ov prev ++ ' ' :: s))) := by
  intro l
  induction l with
  | nil => intro _ st h1 h2 h3; exact ⟨h1, h2, h3⟩
  | cons s rest ih =>
    intro hl st h1 h2 h3
    obtain ⟨chunks, buf⟩ := st
    dsimp only at h1 h2 h3
    have hsent : s ∈ sents := hl s (List.mem_cons_self _ _)
    rw [List.foldl_cons]
    by_cases hover : cs < buf.length + s.length
    · have hstep : chunkStep cs ov (chunks, buf) s =
          (chunks ++ [pyStrip buf], overlapSeed ov buf ++ ' ' :: s) := by
        simp [chunkStep, hover]
      rw [hstep]
      rcases h3 with ⟨hbuf, hch⟩ | hlen | ⟨prev, s2, hlast, hs2, hbeq⟩
      · subst hbuf
        subst hch
        apply ih (fun x hx => hl x (List.mem_cons_of_mem _ hx))
        · intro c hc
          have hc2 : pyStrip [] = c := by simpa using hc
          rw [← hc2, pyStrip_nil]
          simp
        · exact List.chain'_singleton _
        · right; right
          refine ⟨pyStrip [], s, by simp, hsent, ?_⟩
          rw [overlapSeed_pyStrip]
      · apply ih (fun x hx => hl x (List.mem_cons_of_mem _ hx))
        · intro c hc
          cases hch : chunks with
          | nil =>
            rw [hch] at hc
            have hc2 : pyStrip buf = c := by simpa using hc
            rw [← hc2]
            exact Nat.le_trans (length_pyStrip_le _) hlen
          | cons a t =>
            rw [hch] at hc
            have hc2 : a = c := by simpa using hc
            rw [← hc2]
            exact h1 a (by rw [hch]; simp)
        · rw [List.chain'_append]
          refine ⟨h2, List.chain'_singleton _, ?_⟩
          intro x hx y hy
          have hy2 : pyStrip buf = y := by simpa using hy
          rw [← hy2]
          exact Or.inl (Nat.le_trans (length_pyStrip_le _) hlen)
        · right; right
          refine ⟨pyStrip buf, s, List.getLast?_concat _, hsent, ?_⟩
          rw [overlapSeed_pyStrip]
      · apply ih (fun x hx => hl x (List.mem_cons_of_mem _ hx))
        · intro c hc
          cases hch : chunks with
          | nil =>
            rw [hch] at hlast
            simp at hlast
          | cons a t =>
            rw [hch] at hc
            have hc2 : a = c := by simpa using hc
            rw [← hc2]
            exact h1 a (by rw [hch]; simp)
        · rw [List.chain'_append]
          refine ⟨h2, List.chain'_singleton _, ?_⟩
          intro x hx y hy
          have hx2 : prev = x := by
            rw [hlast] at hx
            simpa using hx
          have hy2 : pyStrip buf = y := by simpa using hy
          rw [← hx2, ← hy2, hbeq]
          exact Or.inr ⟨s2, hs2, rfl⟩
        · right; right
          refine ⟨pyStrip buf, s, List.getLast?_concat _, hsent, ?_⟩
          rw [overlapSeed_pyStrip]
    · have hle : buf.length + s.length ≤ cs := Nat.le_of_not_lt hover
      have hstep : chunkStep cs ov (chunks, buf) s =
          (chunks, if buf = [] then s else buf ++ ' ' :: s) := by
        simp [chunkStep, hover]
      rw [hstep]
      apply ih (fun x hx => hl x (List.mem_cons_of_mem _ hx))
      · exact h1
      · exact h2
      · right; left
        by_cases hb : buf = []
        · rw [if_pos hb]
          show s.length ≤ cs + 1
          rw [hb] at hle
          simp only [List.length_nil, Nat.zero_add] at hle
          omega
        · rw [if_neg hb]
          show (buf ++ ' ' :: s).length ≤ cs + 1
          simp only [List.length_append, List.length_cons]
          omega

/-- Claim C3 (amended): the first chunk always has length at most
chunk_size + 1, and every later chunk either has length at most
chunk_size + 1 (the joining space is not counted by the overflow check) or
is EXACTLY the trimmed overflow seed built from the chunk immediately
before it — the overlap text of that chunk, a space and a single triggering
sentence, emitted whole without further accumulation; in particular a
sentence longer than chunk_size is never split. -/
theorem claim3_chunk_length_bound (text : PyStr) (cs ov : Nat) :
    (∀ c ∈ (split_text_into_chunks text cs ov).head?, c.length ≤ cs + 1) ∧
    List.Chain' (fun prev c => c.length ≤ cs + 1 ∨
      ∃ s ∈ split_into_sentences (clean_text text),
        c = pyStrip (overlapSeed ov prev ++ ' ' :: s))
      (split_text_into_chunks text cs ov) := by
  by_cases h1 : text = []
  · rw [h1]
    have hnil : split_text_into_chunks [] cs ov = [] := rfl
    rw [hnil]
    exact ⟨by intro c hc; simp at hc, List.chain'_nil⟩
  · by_cases h2 : (clean_text text).length ≤ cs
    · simp only [split_text_into_chunks, if_neg h1, if_pos h2]
      constructor
      · intro c hc
        have hc2 : clean_text text = c := by simpa using hc
        rw [← hc2]
        exact Nat.le_trans h2 (Nat.le_succ cs)
      · exact List.chain'_singleton _
    · simp only [split_text_into_chunks, if_neg h1, if_neg h2]
      set sents := split_into_sentences (clean_text text) with hsents
      have inv := chunk_foldl_chain cs ov sents sents (fun _ h => h) ([], [])
        (by intro c hc; simp at hc) List.chain'_nil (Or.inl ⟨rfl, rfl⟩)
      set p := sents.foldl (chunkStep cs ov) ([], []) with hp
      obtain ⟨i1, i2, i3⟩ := inv
      by_cases h3 : pyStrip p.2 = []
      · rw [if_pos h3]
        exact ⟨i1, i2⟩
      · rw [if_neg h3]
        rcases i3 with ⟨hbuf, hch⟩ | hlen | ⟨prev, s2, hlast, hs2, hbeq⟩
        · exact absurd (by rw [hbuf]; exact pyStrip_nil) h3
        · constructor
          · intro c hc
            cases hp1 : p.1 with
            | nil =>
              rw [hp1] at hc
              have hc2 : pyStrip p.2 = c := by simpa using hc
              rw [← hc2]
              exact Nat.le_trans (length_pyStrip_le _) hlen
            | cons a t =>
              rw [hp1] at hc
              have hc2 : a = c := by simpa using hc
              rw [← hc2]
              exact i1 a (by rw [hp1]; simp)
          · rw [List.chain'_append]
            refine ⟨i2, List.chain'_singleton _, ?_⟩
            intro x hx y hy
            have hy2 : pyStrip p.2 = y := by simpa using hy
            rw [← hy2]
            exact Or.inl (Nat.le_trans (length_pyStrip_le _) hlen)
        · constructor
          · intro c hc
            cases hp1 : p.1 with
            | nil =>
              rw [hp1] at hlast
              simp at hlast
            | cons a t =>
              rw [hp1] at hc
              have hc2 : a = c := by simpa using hc
              rw [← hc2]
              exact i1 a (by rw [hp1]; simp)
          · rw [List.chain'_append]
            refine ⟨i2, List.chain'_singleton _, ?_⟩
            intro x hx y hy
            have hx2 : prev = x := by
              rw [hlast] at hx
              simpa using hx
            have hy2 : pyStrip p.2 = y := by simpa using hy
            rw [← hx2, ← hy2, hbeq]
            exact Or.inr ⟨s2, hs2, rfl⟩

/-- Claim C3, witness for the amended theorem at a concrete input. -/
theorem claim3_witness :
    (∀ c ∈ (split_text_into_chunks "a. b.".toList 4 50).head?,
      c.length ≤ 4 + 1) ∧
    List.Chain' (fun prev c => c.length ≤ 4 + 1 ∨
      ∃ s ∈ split_into_sentences (clean_text "a. b.".toList),
        c = pyStrip (overlapSeed 50 prev ++ ' ' :: s))
      (split_text_into_chunks "a. b.".toList 4 50) :=
  claim3_chunk_length_bound "a. b.".toList 4 50

/-! ### Claim C4 -/

/-- Claim C4, counterexample: with overlap_words = 0 the Python slice
words[-0:] keeps ALL words of the just-closed chunk rather than none, so
the next buffer is seeded with the entire previous chunk instead of its
last 0 tokens: on "aa bb. cc." with chunk_size 6 the code yields
["aa bb.", "aa bb. cc."] while the loop seeded as the claim states yields
["aa bb.", "cc."]. -/
theorem claim4_counterexample :
    split_text_into_chunks "aa bb. cc.".toList 6 0 =
      ["aa bb.".toList, "aa bb. cc.".toList] ∧
    specChunkLoop 6 (claimSeed 0) []
      (split_into_sentences (clean_text "aa bb. cc.".toList)) =
      ["aa bb.".toList, "cc.".toList] ∧
    split_text_into_chunks "aa bb. cc.".toList 6 0 ≠
      specChunkLoop 6 (claimSeed 0) []
        (split_into_sentences (clean_text "aa bb. cc.".toList)) :=
  ⟨by decide, by decide, by decide⟩

/-- Claim C4 (amended): in the multi-chunk regime the chunking equals the
specified greedy loop: on overflow the buffer is closed as a chunk and the
next buffer is seeded with the last overlap_words whitespace tokens of the
just-closed chunk (all of them if it has fewer, and also all of them when
overlap_words = 0 — the Python negative-zero slice) joined by single spaces
and followed by the triggering sentence; the final non-empty trimmed buffer
becomes the last chunk. -/
theorem claim4_loop_refinement (text : PyStr) (cs ov : Nat)
    (h1 : text ≠ []) (h2 : cs < (clean_text text).length) :
    split_text_into_chunks text cs ov =
      specChunkLoop cs (specSeed ov) []
        (split_into_sentences (clean_text text)) := by
  have h2n : ¬ (clean_text text).length ≤ cs := not_le.mpr h2
  simp only [split_text_into_chunks, if_neg h1, if_neg h2n]
  have h := foldl_eq_specLoop cs ov (split_into_sentences (clean_text text))
    [] []
  simpa using h

/-- Claim C4, witness for the amended theorem at a concrete input. -/
theorem claim4_witness :
    split_text_into_chunks "a. b. c.".toList 3 50 =
      specChunkLoop 3 (specSeed 50) []
        (split_into_sentences (clean_text "a. b. c.".toList)) :=
  claim4_loop_refinement "a. b. c.".toList 3 50 (by decide) (by decide)

/-! ### Claim C10 -/

/-- Claim C10, counterexample: when the very first sentence alone exceeds
chunk_size the loop closes the still-empty buffer, emitting an empty first
chunk: "abcdef" with chunk_size 3 yields the chunks ["", "abcdef"], so an
empty chunk IS emitted. -/
theorem claim10_counterexample :
    split_text_into_chunks "abcdef".toList 3 50 = [[], "abcdef".toList] ∧
    ([] : PyStr) ∈ split_text_into_chunks "abcdef".toList 3 50 :=
  ⟨by decide, by decide⟩

/-- Claim C10 (amended): every chunk is whitespace-trimmed (stripping it
changes nothing), and every chunk except possibly the first is non-empty;
the first chunk is the empty string precisely in the case the original
claim singled out, an overflow of the still-empty initial buffer by a first
sentence longer than chunk_size. -/
theorem claim10_chunks_trimmed (text : PyStr) (cs ov : Nat) :
    (∀ c ∈ split_text_into_chunks text cs ov, pyStrip c = c) ∧
    (∀ c ∈ (split_text_into_chunks text cs ov).drop 1, c ≠ []) := by
  by_cases h1 : text = []
  · constructor <;>
      · intro c hc
        rw [h1] at hc
        simp [split_text_into_chunks] at hc
  · by_cases h2 : (clean_text text).length ≤ cs
    · simp only [split_text_into_chunks, if_neg h1, if_pos h2]
      constructor
      · intro c hc
        have hceq : c = clean_text text := by simpa using hc
        rw [hceq]
        show pyStrip (clean_text text) = clean_text text
        unfold clean_text
        rw [if_neg h1]
        exact pyStrip_idem _
      · intro c hc
        simp at hc
    · simp only [split_text_into_chunks, if_neg h1, if_neg h2]
      set sents := split_into_sentences (clean_text text) with hsents
      have inv := chunk_foldl_trim cs ov (clean_text text) sents
        (fun _ h => h) ([], []) (by intro x hx; simp at hx)
        (by intro x hx; simp at hx) (fun _ => rfl)
        (by intro hne; exact absurd rfl hne)
      set p := sents.foldl (chunkStep cs ov) ([], []) with hp
      obtain ⟨i1, i2, _, _⟩ := inv
      by_cases h3 : pyStrip p.2 = []
      · rw [if_pos h3]
        exact ⟨i1, i2⟩
      · rw [if_neg h3]
        constructor
        · intro c hc
          rcases List.mem_append.mp hc with hca | hcb
          · exact i1 c hca
          · have hceq : c = pyStrip p.2 := by simpa using hcb
            rw [hceq]
            exact pyStrip_idem _
        · intro c hc
          cases hp1 : p.1 with
          | nil =>
            rw [hp1] at hc
            simp at hc
          | cons c0 ctl =>
            rw [hp1] at hc
            rw [List.cons_append, List.drop_succ_cons] at hc
            rcases List.mem_append.mp hc with hca | hcb
            · exact i2 c (by rw [hp1]; simpa using hca)
            · have hceq : c = pyStrip p.2 := by simpa using hcb
              rw [hceq]
              exact h3

/-- Claim C10, witness for the amended theorem at a concrete input. -/
theorem claim10_witness :
    (∀ c ∈ split_text_into_chunks "abc. de.".toList 5 50, pyStrip c = c) ∧
    (∀ c ∈ (split_text_into_chunks "abc. de.".toList 5 50).drop 1, c ≠ []) :=
  claim10_chunks_trimmed "abc. de.".toList 5 50

/-! ### Claim C1 -/

/-- Claim C1: evaluation at the failing input.  The claim says the
fragments handed to concatenation are re-sorted into ascending chunk-index
order for every completion order.  With two chunks, both synthesized
successfully, and completion order chunk 1 before chunk 0 (a valid
completion order — a permutation of the chunk indices), the list handed to
combine_audio_files is [1, 0]: completion order, not ascending index order;
convert_chapter performs no re-sort anywhere between collection and
concatenation. -/
theorem claim1_completion_order_leaks :
    List.Perm [1, 0] (List.range 2) ∧
    chunkFilesModel [1, 0] (fun _ => true) = [1, 0] ∧
    ¬ List.Sorted (· ≤ ·) (chunkFilesModel [1, 0] (fun _ => true)) :=
  ⟨by decide, by decide, by decide⟩

/-! ### Claim C7 -/

/-- Claim C7: in the multi-chunk case (at least two chunks, completion
order a permutation of the chunk indices) a per-chunk synthesis failure
only drops that chunk's fragment: the collected list is exactly the
fragments of the successful chunks, and convert_chapter returns None
exactly when no chunk at all succeeded. -/
theorem claim7_best_effort (n : Nat) (order : List Nat)
    (success : Nat → Bool) (hn : 2 ≤ n)
    (hperm : List.Perm order (List.range n)) :
    chunkFilesModel order success = order.filter success ∧
    (convertChapterModel order success = none ↔
      ∀ i, i < n → success i = false) := by
  have hfilter : ∀ l : List Nat,
      l.filterMap (processChunkModel success) = l.filter success := by
    intro l
    induction l with
    | nil => rfl
    | cons a t ih =>
      by_cases h : success a
      · simp [List.filterMap_cons, List.filter_cons, processChunkModel, h, ih]
      · simp [List.filterMap_cons, List.filter_cons, processChunkModel, h, ih]
  refine ⟨hfilter order, ?_⟩
  unfold convertChapterModel
  constructor
  · intro hnone i hi
    by_cases hempty : chunkFilesModel order success = []
    · have hmem : i ∈ order :=
        hperm.mem_iff.mpr (List.mem_range.mpr hi)
      unfold chunkFilesModel at hempty
      rw [hfilter] at hempty
      have := List.filter_eq_nil_iff.mp hempty i hmem
      simpa using this
    · rw [if_neg hempty] at hnone
      exact absurd hnone (by simp)
  · intro hall
    have hempty : chunkFilesModel order success = [] := by
      unfold chunkFilesModel
      rw [hfilter]
      apply List.filter_eq_nil_iff.mpr
      intro a ha
      have han : a < n := List.mem_range.mp (hperm.mem_iff.mp ha)
      simp [hall a han]
    rw [if_pos hempty]

/-- Claim C7, witness: three chunks, chunk 1 fails, completion order
2, 0, 1 — matching the end-to-end scenario of the specification. -/
theorem claim7_witness :
    chunkFilesModel [2, 0, 1] (fun i => decide (i ≠ 1)) =
      [2, 0, 1].filter (fun i => decide (i ≠ 1)) ∧
    (convertChapterModel [2, 0, 1] (fun i => decide (i ≠ 1)) = none ↔
      ∀ i, i < 3 → decide (i ≠ 1) = false) :=
  claim7_best_effort 3 [2, 0, 1] (fun i => decide (i ≠ 1)) (by decide)
    (by decide)

/-! ### Claim C5 -/

/-- Claim C5: for every format strategy and the Ebook facade, chapter-text
retrieval at an index outside the valid range fails explicitly: the text,
EPUB and PDF processors raise ProcessingError (their except clause
re-raises the IndexError), the Ebook facade raises IndexError; none returns
a silent empty result. -/
theorem claim5_out_of_range (i : Int) :
    (∀ st : TextProc, (i < 0 ∨ (st.chapters.length : Int) ≤ i) →
      st.get_chapter_text i = .error .processingError) ∧
    (∀ chs : List EpubChapter, (i < 0 ∨ (chs.length : Int) ≤ i) →
      EpubProc.get_chapter_text chs i = .error .processingError) ∧
    (∀ st : PdfProc, (i < 0 ∨ (st.chapters.length : Int) ≤ i) →
      st.get_chapter_text i = .error .processingError) ∧
    (∀ (proc : Int → Except PyErr PyStr) (n : Nat), (i < 0 ∨ (n : Int) ≤ i) →
      Ebook.get_chapter_text proc n i = .error .indexError) := by
  refine ⟨?_, ?_, ?_, ?_⟩
  · intro st h
    unfold TextProc.get_chapter_text
    rw [if_pos h]
  · intro chs h
    unfold EpubProc.get_chapter_text
    rw [if_pos h]
  · intro st h
    unfold PdfProc.get_chapter_text
    rw [if_pos h]
  · intro proc n h
    unfold Ebook.get_chapter_text
    rw [if_pos h]

/-- Claim C5, witness: the one-chapter text processor state built from
"hello." rejects index 5, and the Ebook facade rejects index -1. -/
theorem claim5_witness :
    TextProc.get_chapter_text (mkTextProc "hello.".toList) 5 =
      .error .processingError ∧
    Ebook.get_chapter_text (fun _ => .ok []) 2 (-1) = .error .indexError :=
  ⟨(claim5_out_of_range 5).1 (mkTextProc "hello.".toList) (by decide),
    (claim5_out_of_range (-1)).2.2.2 (fun _ => .ok []) 2 (by decide)⟩

/-! ### Claim C6 -/

lemma chapterFallback_ne_nil (j : Int) : chapterFallback j ≠ [] := by
  intro h
  have h2 : ('C' :: ("hapter ".toList ++ (toString (j + 1)).toList) : PyStr)
      = [] := h
  exact List.cons_ne_nil _ _ h2

/-- Claim C6: for every valid chapter index the title lookup of the Ebook
facade never fails and never returns the empty string, for every processor
whose successful titles are non-empty; on any processor error it returns
the synthesized "Chapter N" fallback; and the EPUB processor title
extraction it wraps never produces an empty title (first non-blank heading,
else a truthy item id, else the fallback). -/
theorem claim6_title_never_empty (proc : Int → Except PyErr PyStr)
    (n : Nat) (i : Int) (hlo : 0 ≤ i) (hhi : i < (n : Int))
    (hproc : ∀ t, proc i = .ok t → t ≠ []) :
    (∃ t, Ebook.get_chapter_title proc n i = .ok t ∧ t ≠ []) ∧
    (∀ e, proc i = .error e →
      Ebook.get_chapter_title proc n i = .ok (chapterFallback i)) ∧
    (∀ chs : List EpubChapter, EpubProc.get_chapter_title chs i ≠ []) := by
  have hcond : ¬ (i < 0 ∨ (n : Int) ≤ i) := by omega
  refine ⟨?_, ?_, ?_⟩
  · unfold Ebook.get_chapter_title
    rw [if_neg hcond]
    cases hpi : proc i with
    | ok t => exact ⟨t, rfl, hproc t hpi⟩
    | error e => exact ⟨chapterFallback i, rfl, chapterFallback_ne_nil i⟩
  · intro e he
    unfold Ebook.get_chapter_title
    rw [if_neg hcond, he]
  · intro chs
    unfold EpubProc.get_chapter_title
    by_cases hoob : i < 0 ∨ (chs.length : Int) ≤ i
    · rw [if_pos hoob]
      exact chapterFallback_ne_nil i
    · rw [if_neg hoob]
      cases hfind : (chs.getD i.toNat ⟨[], [], []⟩).headings.find?
          (fun h => !(pyStrip h).isEmpty) with
      | some h =>
        simp only [hfind]
        have := List.find?_some hfind
        simpa using this
      | none =>
        simp only [hfind]
        by_cases hid : (chs.getD i.toNat ⟨[], [], []⟩).itemId = []
        · rw [if_pos hid]
          exact chapterFallback_ne_nil i
        · rw [if_neg hid]
          exact hid

/-- Claim C6, witness: a processor forced to error on every index still
yields a non-empty ok title at the valid index 1 of 2. -/
theorem claim6_witness :
    (∃ t, Ebook.get_chapter_title (fun _ => .error .processingError) 2 1 =
      .ok t ∧ t ≠ []) ∧
    (∀ e, (fun _ : Int => (.error .processingError : Except PyErr PyStr)) 1 =
        .error e →
      Ebook.get_chapter_title (fun _ => .error .processingError) 2 1 =
        .ok (chapterFallback 1)) ∧
    (∀ chs : List EpubChapter, EpubProc.get_chapter_title chs 1 ≠ []) :=
  claim6_title_never_empty (fun _ => .error .processingError) 2 1
    (by decide) (by decide) (fun t h => Except.noConfusion h)

/-! ### Claim C8 -/

lemma mapM_ok_of_forall {α β : Type} {l : List α} {f : α → Except PyErr β}
    {g : α → β} (h : ∀ a ∈ l, f a = .ok (g a)) :
    l.mapM f = .ok (l.map g) := by
  induction l with
  | nil => rfl
  | cons a t ih =>
    rw [List.mapM_cons, h a (List.mem_cons_self _ _),
      ih (fun x hx => h x (List.mem_cons_of_mem _ hx))]
    rfl

/-- Claim C8, counterexample: for the plain-text strategy getFullText is
the cleaned raw text with no chapter structure, not the concatenation of
"Chapter: <title>" entries.  On the file text "chapter one\nhello." the
processor extracts one chapter titled "chapter one"; the claimed
concatenation is "Chapter: chapter one\n\nchapter one hello.\n\n", but
get_full_text returns "chapter one hello.". -/
theorem claim8_counterexample :
    TextProc.get_full_text (mkTextProc "chapter one\nhello.".toList) =
      "chapter one hello.".toList ∧
    claimedFullText
      (fun i => (mkTextProc "chapter one\nhello.".toList).get_chapter_title
        (i : Int))
      (fun i =>
        match (mkTextProc "chapter one\nhello.".toList).get_chapter_text
            (i : Int) with
        | .ok t => t
        | .error _ => [])
      (mkTextProc "chapter one\nhello.".toList).chapters.length =
      "Chapter: chapter one\n\nchapter one hello.\n\n".toList ∧
    TextProc.get_full_text (mkTextProc "chapter one\nhello.".toList) ≠
      claimedFullText
        (fun i => (mkTextProc "chapter one\nhello.".toList).get_chapter_title
          (i : Int))
        (fun i =>
          match (mkTextProc "chapter one\nhello.".toList).get_chapter_text
              (i : Int) with
          | .ok t => t
          | .error _ => [])
        (mkTextProc "chapter one\nhello.".toList).chapters.length :=
  ⟨by decide, by decide, by decide⟩

/-- Claim C8 (amended): for the EPUB and PDF strategies getFullText
produces the per-chapter entries "Chapter: <title>\n\n<body>\n\n" in
chapter order JOINED WITH A NEWLINE separator (str.join inserts one extra
newline between consecutive entries, so this is not the plain
concatenation), while the plain-text strategy ignores chapters entirely and
returns the cleaned raw file text. -/
theorem claim8_full_text_shape :
    (∀ chs : List EpubChapter, EpubProc.get_full_text chs =
      .ok (List.intercalate ['\n'] ((List.range chs.length).map (fun (i : Nat) =>
        "Chapter: ".toList ++ EpubProc.get_chapter_title chs (i : Int) ++
        "\n\n".toList ++ clean_text (chs.getD i ⟨[], [], []⟩).raw ++
        "\n\n".toList)))) ∧
    (∀ st : PdfProc, st.get_full_text =
      .ok (List.intercalate ['\n'] ((List.range st.chapters.length).map
        (fun (i : Nat) => "Chapter: ".toList ++ st.get_chapter_title (i : Int) ++
        "\n\n".toList ++ st.chapterBody (st.chapters.getD i ⟨[], 0, 0⟩) ++
        "\n\n".toList)))) ∧
    (∀ st : TextProc, st.get_full_text = clean_text st.text) := by
  refine ⟨?_, ?_, fun _ => rfl⟩
  · intro chs
    unfold EpubProc.get_full_text
    rw [mapM_ok_of_forall (g := fun (i : Nat) =>
      "Chapter: ".toList ++ EpubProc.get_chapter_title chs (i : Int) ++
      "\n\n".toList ++ clean_text (chs.getD i ⟨[], [], []⟩).raw ++
      "\n\n".toList) ?_]
    · rfl
    · intro a ha
      have han : a < chs.length := List.mem_range.mp ha
      have hcond : ¬ ((a : Int) < 0 ∨ (chs.length : Int) ≤ (a : Int)) := by
        omega
      show (EpubProc.get_chapter_text chs (a : Int)).bind _ = _
      unfold EpubProc.get_chapter_text
      rw [if_neg hcond]
      show Except.ok _ = Except.ok _
      rw [Int.toNat_ofNat]
  · intro st
    unfold PdfProc.get_full_text
    rw [mapM_ok_of_forall (g := fun (i : Nat) =>
      "Chapter: ".toList ++ st.get_chapter_title (i : Int) ++
      "\n\n".toList ++ st.chapterBody (st.chapters.getD i ⟨[], 0, 0⟩) ++
      "\n\n".toList) ?_]
    · rfl
    · intro a ha
      have han : a < st.chapters.length := List.mem_range.mp ha
      have hcond : ¬ ((a : Int) < 0 ∨ (st.chapters.length : Int) ≤ (a : Int))
          := by omega
      show (PdfProc.get_chapter_text st (a : Int)).bind _ = _
      unfold PdfProc.get_chapter_text
      rw [if_neg hcond]
      show Except.ok _ = Except.ok _
      rw [Int.toNat_ofNat]

/-! ### Claim C9 -/

lemma div_cast_mono {a b : ℚ} (N : Nat) (h : a ≤ b) :
    a / (N : ℚ) * 100 ≤ b / (N : ℚ) * 100 := by
  rcases Nat.eq_zero_or_pos N with h0 | h0
  · subst h0; simp
  · have hN : (0 : ℚ) < (N : ℚ) := by exact_mod_cast h0
    have hd : a / (N : ℚ) ≤ b / (N : ℚ) := (div_le_div_right hN).mpr h
    exact mul_le_mul_of_nonneg_right hd (by norm_num)

lemma getD_range_map {β : Type} (n : Nat) (f : Nat → β) (d : β) (k : Nat) :
    ((List.range n).map f).getD k d = if k < n then f k else d := by
  by_cases h : k < n
  · rw [if_pos h, List.getD_eq_getElem?_getD, List.getElem?_map,
      List.getElem?_range h]
    rfl
  · rw [if_neg h, List.getD_eq_getElem?_getD, List.getElem?_eq_none]
    · rfl
    · simpa using Nat.le_of_not_lt h

lemma chapterReports_bounds (N i : Nat) (ch : ChapterModel) :
    ∀ v ∈ chapterReports N i ch,
      (i : ℚ) / (N : ℚ) * 100 ≤ v ∧ v ≤ ((i : ℚ) + 1) / (N : ℚ) * 100 := by
  intro v hv
  cases ch with
  | noAudio => simp [chapterReports] at hv
  | single c =>
    have hveq : v = ((i : ℚ) + 1 / 1) / (N : ℚ) * 100 := by
      simpa [chapterReports] using hv
    rw [hveq]
    constructor
    · exact div_cast_mono N (by norm_num)
    · apply le_of_eq
      norm_num
  | multi chunks =>
    simp only [chapterReports, List.mem_map, List.mem_range] at hv
    obtain ⟨p, hp, rfl⟩ := hv
    have htpos : (0 : ℚ) < (chunks.length : ℚ) := by
      exact_mod_cast Nat.zero_lt_of_lt hp
    constructor
    · apply div_cast_mono
      have : (0 : ℚ) ≤ ((p : ℚ) + 1) / (chunks.length : ℚ) :=
        div_nonneg (by positivity) (le_of_lt htpos)
      linarith
    · apply div_cast_mono
      have hfrac : ((p : ℚ) + 1) / (chunks.length : ℚ) ≤ 1 := by
        rw [div_le_one htpos]
        exact_mod_cast Nat.succ_le_of_lt hp
      linarith

lemma chapterReports_chain (N i : Nat) (ch : ChapterModel) :
    List.Chain' (· ≤ ·) (chapterReports N i ch) := by
  cases ch with
  | noAudio => exact List.chain'_nil
  | single c => exact List.chain'_singleton _
  | multi chunks =>
    apply List.Pairwise.chain'
    simp only [chapterReports]
    rw [List.pairwise_map]
    apply (List.pairwise_lt_range _).imp
    intro a b hab
    apply div_cast_mono
    have hfrac : ((a : ℚ) + 1) / (chunks.length : ℚ) ≤
        ((b : ℚ) + 1) / (chunks.length : ℚ) := by
      rcases Nat.eq_zero_or_pos chunks.length with h0 | h0
      · rw [h0]; norm_num
      · have hpos : (0 : ℚ) < (chunks.length : ℚ) := by exact_mod_cast h0
        apply (div_le_div_right hpos).mpr
        have : (a : ℚ) ≤ (b : ℚ) := by exact_mod_cast Nat.le_of_lt hab
        linarith
    linarith

lemma chain_flatten_mono (L : List (List ℚ)) (lo hi : Nat → ℚ)
    (hlohi : ∀ k, lo k ≤ hi k) (hcross : ∀ k, hi k ≤ lo (k + 1))
    (hbound : ∀ k, ∀ v ∈ L.getD k [], lo k ≤ v ∧ v ≤ hi k)
    (hchain : ∀ l ∈ L, List.Chain' (· ≤ ·) l) :
    List.Chain' (· ≤ ·) L.flatten ∧ ∀ v ∈ L.flatten, lo 0 ≤ v := by
  induction L generalizing lo hi with
  | nil => exact ⟨List.chain'_nil, by simp⟩
  | cons l L ih =>
    have ih2 := ih (fun k => lo (k + 1)) (fun k => hi (k + 1))
      (fun k => hlohi (k + 1)) (fun k => hcross (k + 1))
      (fun k v hv => hbound (k + 1) v (by simpa using hv))
      (fun m hm => hchain m (List.mem_cons_of_mem _ hm))
    constructor
    · rw [List.flatten_cons, List.chain'_append]
      refine ⟨hchain l (List.mem_cons_self _ _), ih2.1, ?_⟩
      intro x hx y hy
      have hxl : x ∈ l := List.mem_of_getLast?_eq_some hx
      have hxle : x ≤ hi 0 := (hbound 0 x (by simpa using hxl)).2
      have hyge : lo 1 ≤ y := ih2.2 y (List.mem_of_mem_head? hy)
      calc x ≤ hi 0 := hxle
        _ ≤ lo 1 := hcross 0
        _ ≤ y := hyge
    · intro v hv
      rw [List.flatten_cons, List.mem_append] at hv
      rcases hv with hv1 | hv2
      · exact (hbound 0 v (by simpa using hv1)).1
      · calc lo 0 ≤ hi 0 := hlohi 0
          _ ≤ lo 1 := hcross 0
          _ ≤ v := ih2.2 v hv2

/-- Claim C9: every progress value reported during convert_book equals
(chapters fully done + fraction of the current chapter done) divided by the
chapter count, times 100, and the reported sequence is monotonically
non-decreasing over the whole conversion for every per-chapter chunk count,
success pattern and completion order. -/
theorem claim9_progress_monotone (chapters : List ChapterModel) :
    List.Chain' (· ≤ ·) (bookReports chapters) ∧
    ∀ v ∈ bookReports chapters, ∃ i c t : Nat,
      i < chapters.length ∧ 1 ≤ c ∧ c ≤ t ∧
      v = ((i : ℚ) + (c : ℚ) / (t : ℚ)) / (chapters.length : ℚ) * 100 := by
  constructor
  · unfold bookReports
    refine (chain_flatten_mono _
      (fun k => (k : ℚ) / (chapters.length : ℚ) * 100)
      (fun k => ((k : ℚ) + 1) / (chapters.length : ℚ) * 100)
      (fun k => div_cast_mono _ (by linarith))
      (fun k => by
        apply le_of_eq
        push_cast
        ring)
      ?_ ?_).1
    · intro k v hv
      rw [getD_range_map] at hv
      by_cases h : k < chapters.length
      · rw [if_pos h] at hv
        exact chapterReports_bounds _ k _ v hv
      · rw [if_neg h] at hv
        simp at hv
    · intro l hl
      rw [List.mem_map] at hl
      obtain ⟨k, _, rfl⟩ := hl
      exact chapterReports_chain _ k _
  · intro v hv
    unfold bookReports at hv
    rw [List.mem_flatten] at hv
    obtain ⟨l, hl, hvl⟩ := hv
    rw [List.mem_map] at hl
    obtain ⟨k, hk, rfl⟩ := hl
    have hkn : k < chapters.length := List.mem_range.mp hk
    cases hch : chapters.getD k .noAudio with
    | noAudio =>
      rw [hch] at hvl
      simp [chapterReports] at hvl
    | single c =>
      rw [hch] at hvl
      have hveq : v = ((k : ℚ) + 1 / 1) / (chapters.length : ℚ) * 100 := by
        simpa [chapterReports] using hvl
      exact ⟨k, 1, 1, hkn, Nat.le_refl 1, Nat.le_refl 1, by
        rw [hveq]; norm_num⟩
    | multi chunks =>
      rw [hch] at hvl
      simp only [chapterReports, List.mem_map, List.mem_range] at hvl
      obtain ⟨p, hp, rfl⟩ := hvl
      exact ⟨k, p + 1, chunks.length, hkn, by omega, by omega, by
        push_cast; ring⟩

/-- Claim C9, witness: a concrete three-chapter book (a skipped chapter, a
single-chunk chapter and a two-chunk chapter). -/
theorem claim9_witness :
    List.Chain' (· ≤ ·) (bookReports [ChapterModel.noAudio,
      ChapterModel.single "x.".toList,
      ChapterModel.multi ["a.".toList, "b.".toList]]) ∧
    ∀ v ∈ bookReports [ChapterModel.noAudio,
      ChapterModel.single "x.".toList,
      ChapterModel.multi ["a.".toList, "b.".toList]], ∃ i c t : Nat,
      i < ([ChapterModel.noAudio, ChapterModel.single "x.".toList,
        ChapterModel.multi ["a.".toList, "b.".toList]] :
          List ChapterModel).length ∧ 1 ≤ c ∧ c ≤ t ∧
      v = ((i : ℚ) + (c : ℚ) / (t : ℚ)) /
        (([ChapterModel.noAudio, ChapterModel.single "x.".toList,
          ChapterModel.multi ["a.".toList, "b.".toList]] :
            List ChapterModel).length : ℚ) * 100 :=
  claim9_progress_monotone [ChapterModel.noAudio,
    ChapterModel.single "x.".toList,
    ChapterModel.multi ["a.".toList, "b.".toList]]
